import Mathlib

/-!
# Double pendulum: trail buffer and physics integrator

A shallow embedding of `src/trails.c` and `src/physics.c`.

* The trail buffer is a ring buffer over C `int` indices.  The indices are
  modelled as `Int`, C's `%` as `Int.tmod` (truncated remainder), the two
  `float` arrays as lists, and a read outside the array as `none`.  The sums
  of the traversal of `trail_render` are reduced to 32-bit two's complement
  (`wrap32`), since they can leave the range of `int`; the sums of
  `trail_push` stay at most `max_points`.
* The physics code is modelled over an arbitrary linearly ordered field `R`
  (the theorems take `R = ℝ`).  The functions `sin`, `cos` and the constant
  `M_PI` of `<math.h>` are parameters.  A division is defined only for a
  non-zero divisor, so every function that divides returns an `Option`.
-/

namespace DoublePendulum

/-! ## Trail buffer (`src/trails.c`, `src/trails.h`) -/

/-- The `Trail` struct of `trails.h`; `xs` and `ys` are the two arrays. -/
structure Trail (α : Type) where
  max_points : Int
  count : Int
  head : Int
  xs : List α
  ys : List α
deriving DecidableEq

/-- Outcome of the three `malloc` calls of `trail_create`: whether the struct
was obtained, and for each array either failure (`none`) or the indeterminate
initial content of its cells. -/
structure Mallocs (α : Type) where
  trail : Bool
  xs : Option (Nat → α)
  ys : Option (Nat → α)

/-- Array write `a[i] = v`. -/
def store {α : Type} (a : List α) (i : Int) (v : α) : List α :=
  if 0 ≤ i then a.set i.toNat v else a

/-- Array read `a[i]`; `none` outside the array. -/
def load {α : Type} (a : List α) (i : Int) : Option α :=
  if 0 ≤ i then a[i.toNat]? else none

/-- Function `trail_create` (trails.c 6-29). -/
def trail_create {α : Type} (max_points : Int) (mem : Mallocs α) : Option (Trail α) :=
  if max_points ≤ 0 then none
  else if !mem.trail then none
  else
    match mem.xs with
    | none => none
    | some fx =>
      match mem.ys with
      | none => none
      | some fy =>
        some { max_points := max_points
               count := 0
               head := 0
               xs := (List.range max_points.toNat).map fx
               ys := (List.range max_points.toNat).map fy }

/-- Function `trail_push` (trails.c 38-44) on a non-null trail with non-null
arrays.  Both sums are at most `max_points`, itself an `int`. -/
def trail_push {α : Type} (t : Trail α) (x y : α) : Trail α :=
  let t1 : Trail α := { t with xs := store t.xs t.head x }
  let t2 : Trail α := { t1 with ys := store t1.ys t1.head y }
  let t3 : Trail α := { t2 with head := Int.tmod (t2.head + 1) t2.max_points }
  if t3.count < t3.max_points then { t3 with count := t3.count + 1 } else t3

/-- Function `trail_clear` (trails.c 47-50) on a non-null trail. -/
def trail_clear {α : Type} (t : Trail α) : Trail α :=
  { t with count := 0, head := 0 }

/-- The value of a C `int` sum or difference: the mathematical result reduced
to 32-bit two's complement. -/
def wrap32 (x : Int) : Int :=
  (x + 2147483648) % 4294967296 - 2147483648

/-- The start index `idx` of `trail_render` (trails.c 63), in `int` arithmetic. -/
def trail_start {α : Type} (t : Trail α) : Int :=
  Int.tmod (wrap32 (wrap32 (t.head - t.count) + t.max_points)) t.max_points

/-- The slot `j = (idx + i) % max_points` of `trail_render` (trails.c 65), in
`int` arithmetic. -/
def trail_slot {α : Type} (t : Trail α) (i : Nat) : Int :=
  Int.tmod (wrap32 (trail_start t + (i : Int))) t.max_points

/-- The point `(xs[j], ys[j])` read at position `i` of the traversal. -/
def trail_point {α : Type} (t : Trail α) (i : Nat) : Option (α × α) :=
  (load t.xs (trail_slot t i)).bind fun x =>
    (load t.ys (trail_slot t i)).bind fun y => some (x, y)

/-- The oldest-first traversal of `trail_render`: positions `0 .. count-1`. -/
def trail_points {α : Type} (t : Trail α) : Option (List (α × α)) :=
  (List.range t.count.toNat).mapM (trail_point t)

/-- The line segments drawn by `trail_render` (trails.c 54, 63-71): none when
`count < 2`, else for `i = 0 .. count-2` the segment from slot
`j = (idx + i) % max_points` to slot `k = (idx + i + 1) % max_points`, in `int`
arithmetic, with every coordinate converted by `px`, the `(int)floor(..)` of
the source. -/
def trail_render {α : Type} (px : α → Int) (t : Trail α) :
    Option (List ((Int × Int) × (Int × Int))) :=
  if t.count < 2 then some []
  else
    (List.range (t.count - 1).toNat).mapM fun (i : Nat) =>
      let j := Int.tmod (wrap32 (trail_start t + (i : Int))) t.max_points
      let k := Int.tmod (wrap32 (wrap32 (trail_start t + (i : Int)) + 1)) t.max_points
      (load t.xs j).bind fun xj => (load t.ys j).bind fun yj =>
        (load t.xs k).bind fun xk => (load t.ys k).bind fun yk =>
          some ((px xj, px yj), (px xk, px yk))

/-- A call made on a trail by the frame loop (main.c 63, 68, 95). -/
inductive TrailOp (α : Type) where
  | push (x y : α)
  | clear
deriving DecidableEq

/-- Effect of one call on the buffer. -/
def TrailOp.apply {α : Type} (t : Trail α) : TrailOp α → Trail α
  | .push x y => trail_push t x y
  | .clear => trail_clear t

/-- Effect of a sequence of calls, first call first. -/
def trail_run {α : Type} (t : Trail α) (ops : List (TrailOp α)) : Trail α :=
  ops.foldl TrailOp.apply t

/-- Bookkeeping of the points pushed since the last clear, oldest first. -/
def TrailOp.record {α : Type} (pts : List (α × α)) : TrailOp α → List (α × α)
  | .push x y => pts ++ [(x, y)]
  | .clear => []

/-- The points pushed since creation or the most recent clear, in push order. -/
def pushed_since_clear {α : Type} (ops : List (TrailOp α)) : List (α × α) :=
  ops.foldl TrailOp.record []

/-- The index predicate of the data model: `0 ≤ count ≤ max_points` and
`0 ≤ head < max_points`. -/
def TrailInv {α : Type} (t : Trail α) : Prop :=
  0 ≤ t.count ∧ t.count ≤ t.max_points ∧ 0 ≤ t.head ∧ t.head < t.max_points

/-- Both arrays have exactly `max_points` cells. -/
def TrailStorage {α : Type} (t : Trail α) : Prop :=
  t.xs.length = t.max_points.toNat ∧ t.ys.length = t.max_points.toNat

/-- Representation relation: the buffer of capacity `c` holds the history
`pts`.  Push number `k` lives in slot `k % c`; the last `min n c` pushes are
still stored. -/
def TrailRep {α : Type} (t : Trail α) (c : Nat) (pts : List (α × α)) : Prop :=
  0 < c ∧ t.max_points = (c : Int) ∧ t.xs.length = c ∧ t.ys.length = c ∧
  t.head = ((pts.length % c : Nat) : Int) ∧
  t.count = ((min pts.length c : Nat) : Int) ∧
  ∀ k, pts.length - c ≤ k → k < pts.length →
    t.xs[k % c]? = pts[k]?.map Prod.fst ∧ t.ys[k % c]? = pts[k]?.map Prod.snd


/-! ## Pendulum state and integrator (`src/physics.c`, `src/physics.h`) -/

/-- The `Pendulum` struct of `physics.h`. -/
structure Pendulum (R : Type) where
  m1 : R
  m2 : R
  l1 : R
  l2 : R
  theta1 : R
  theta2 : R
  omega1 : R
  omega2 : R
  damping : R
deriving DecidableEq

section Physics

variable {R : Type} [LinearOrderedField R]

/-- Gravity constant `G` (physics.c 5). -/
def G : R := 9.81

/-- Division `a / b`, defined only for a non-zero divisor. -/
def fdiv (a b : R) : Option R :=
  if b = 0 then none else some (a / b)

/-- Function `pendulum_init` (physics.c 8-19); `pi` is `M_PI`. -/
def pendulum_init (pi : R) (p : Pendulum R) : Pendulum R :=
  { p with
    m1 := 1.0
    m2 := 1.0
    l1 := 170.0
    l2 := 170.0
    theta1 := pi * 0.6
    theta2 := pi * 0.4
    omega1 := 0.0
    omega2 := 0.0
    damping := 0.0 }

/-- Function `pendulum_reset` (physics.c 22-24). -/
def pendulum_reset (pi : R) (p : Pendulum R) : Pendulum R :=
  pendulum_init pi p

/-- The clamp applied to both denominators (physics.c 44 and 46):
`if (fabs(den) < 1e-12) den = (den < 0) ? -1e-12 : 1e-12;`. -/
def clamp_den (den : R) : R :=
  if |den| < 1e-12 then (if den < 0 then -1e-12 else 1e-12) else den

/-- The value `den1` of `compute_acc` before its clamp (physics.c 38-43). -/
def acc_den1_raw (cos : R → R) (p : Pendulum R) (th1 th2 : R) : R :=
  let m1 := p.m1
  let m2 := p.m2
  let l1 := p.l1
  let delta := th2 - th1
  let cos_d := cos delta
  (m1 + m2) * l1 - m2 * l1 * cos_d * cos_d

/-- The value `den1` that `num1` is divided by (physics.c 44). -/
def acc_den1 (cos : R → R) (p : Pendulum R) (th1 th2 : R) : R :=
  clamp_den (acc_den1_raw cos p th1 th2)

/-- The value `den2 = (l2 / l1) * den1` before its clamp (physics.c 45). -/
def acc_den2_raw (cos : R → R) (p : Pendulum R) (th1 th2 : R) : Option R :=
  (fdiv p.l2 p.l1).map fun q => q * acc_den1 cos p th1 th2

/-- The value `den2` that `num2` is divided by (physics.c 46). -/
def acc_den2 (cos : R → R) (p : Pendulum R) (th1 th2 : R) : Option R :=
  (acc_den2_raw cos p th1 th2).map clamp_den

/-- The numerator `num1` of `compute_acc` (physics.c 49-53). -/
def acc_num1 (sin cos : R → R) (p : Pendulum R) (th1 th2 w1 w2 : R) : R :=
  let m1 := p.m1
  let m2 := p.m2
  let l1 := p.l1
  let l2 := p.l2
  let delta := th2 - th1
  let sin_d := sin delta
  let cos_d := cos delta
  m2 * l1 * w1 * w1 * sin_d * cos_d
    + m2 * G * sin th2 * cos_d
    + m2 * l2 * w2 * w2 * sin_d
    - (m1 + m2) * G * sin th1

/-- The numerator `num2` of `compute_acc` (physics.c 55-59). -/
def acc_num2 (sin cos : R → R) (p : Pendulum R) (th1 th2 w1 w2 : R) : R :=
  let m1 := p.m1
  let m2 := p.m2
  let l1 := p.l1
  let l2 := p.l2
  let delta := th2 - th1
  let sin_d := sin delta
  let cos_d := cos delta
  (-m2) * l2 * w2 * w2 * sin_d * cos_d
    + (m1 + m2) * G * sin th1 * cos_d
    - (m1 + m2) * l1 * w1 * w1 * sin_d
    - (m1 + m2) * G * sin th2

/-- Function `compute_acc` (physics.c 28-63): the pair `(alpha1, alpha2)`, or `none`
when one of its three divisions has a zero divisor. -/
def compute_acc (sin cos : R → R) (p : Pendulum R) (th1 th2 w1 w2 : R) : Option (R × R) :=
  let den1 := acc_den1 cos p th1 th2
  (acc_den2 cos p th1 th2).bind fun den2 =>
    let num1 := acc_num1 sin cos p th1 th2 w1 w2
    let num2 := acc_num2 sin cos p th1 th2 w1 w2
    (fdiv num1 den1).bind fun alpha1 =>
      (fdiv num2 den2).bind fun alpha2 =>
        some (alpha1, alpha2)

/-- Function `pendulum_step` (physics.c 66-126), one RK4 step followed by the optional
damping; `none` when a call of `compute_acc` divides by zero. -/
def pendulum_step (sin cos : R → R) (p : Pendulum R) (dt : R) : Option (Pendulum R) :=
  let t1 := p.theta1
  let t2 := p.theta2
  let w1 := p.omega1
  let w2 := p.omega2
  (compute_acc sin cos p t1 t2 w1 w2).bind fun k1 =>
    let k1_w1 := k1.1
    let k1_w2 := k1.2
    let k1_t1 := w1
    let k1_t2 := w2
    (compute_acc sin cos p
        (t1 + 0.5 * dt * k1_t1) (t2 + 0.5 * dt * k1_t2)
        (w1 + 0.5 * dt * k1_w1) (w2 + 0.5 * dt * k1_w2)).bind fun k2 =>
      let k2_w1 := k2.1
      let k2_w2 := k2.2
      let k2_t1 := w1 + 0.5 * dt * k1_w1
      let k2_t2 := w2 + 0.5 * dt * k1_w2
      (compute_acc sin cos p
          (t1 + 0.5 * dt * k2_t1) (t2 + 0.5 * dt * k2_t2)
          (w1 + 0.5 * dt * k2_w1) (w2 + 0.5 * dt * k2_w2)).bind fun k3 =>
        let k3_w1 := k3.1
        let k3_w2 := k3.2
        let k3_t1 := w1 + 0.5 * dt * k2_w1
        let k3_t2 := w2 + 0.5 * dt * k2_w2
        (compute_acc sin cos p
            (t1 + dt * k3_t1) (t2 + dt * k3_t2)
            (w1 + dt * k3_w1) (w2 + dt * k3_w2)).bind fun k4 =>
          let k4_w1 := k4.1
          let k4_w2 := k4.2
          let k4_t1 := w1 + dt * k3_w1
          let k4_t2 := w2 + dt * k3_w2
          let p1 : Pendulum R :=
            { p with theta1 := p.theta1 + dt * (k1_t1 + 2.0 * k2_t1 + 2.0 * k3_t1 + k4_t1) / 6.0 }
          let p2 : Pendulum R :=
            { p1 with theta2 := p1.theta2 + dt * (k1_t2 + 2.0 * k2_t2 + 2.0 * k3_t2 + k4_t2) / 6.0 }
          let p3 : Pendulum R :=
            { p2 with omega1 := p2.omega1 + dt * (k1_w1 + 2.0 * k2_w1 + 2.0 * k3_w1 + k4_w1) / 6.0 }
          let p4 : Pendulum R :=
            { p3 with omega2 := p3.omega2 + dt * (k1_w2 + 2.0 * k2_w2 + 2.0 * k3_w2 + k4_w2) / 6.0 }
          if p4.damping > 0.0 then
            let p5 : Pendulum R := { p4 with omega1 := p4.omega1 * (1.0 - p4.damping) }
            some { p5 with omega2 := p5.omega2 * (1.0 - p5.damping) }
          else some p4

/-- The kinetic part `KE` of `pendulum_total_energy` (physics.c 133-152). -/
def pendulum_kinetic_energy (sin cos : R → R) (p : Pendulum R) : R :=
  let m1 := p.m1
  let m2 := p.m2
  let l1 := p.l1
  let l2 := p.l2
  let t1 := p.theta1
  let t2 := p.theta2
  let w1 := p.omega1
  let w2 := p.omega2
  let vx1 := l1 * w1 * cos t1
  let vy1 := (-l1) * w1 * sin t1
  let v1sq := vx1 * vx1 + vy1 * vy1
  let vx2 := vx1 + l2 * w2 * cos t2
  let vy2 := vy1 - l2 * w2 * sin t2
  let v2sq := vx2 * vx2 + vy2 * vy2
  0.5 * m1 * v1sq + 0.5 * m2 * v2sq

/-- The potential part `PE` of `pendulum_total_energy` (physics.c 133-153). -/
def pendulum_potential_energy (cos : R → R) (p : Pendulum R) : R :=
  let m1 := p.m1
  let m2 := p.m2
  let l1 := p.l1
  let l2 := p.l2
  let t1 := p.theta1
  let t2 := p.theta2
  let y1 := (-l1) * cos t1
  let y2 := y1 - l2 * cos t2
  m1 * G * (y1 + l1 + l2) + m2 * G * (y2 + l1 + l2)

/-- Function `pendulum_total_energy` (physics.c 129-156). -/
def pendulum_total_energy (sin cos : R → R) (p : Pendulum R) : R :=
  let m1 := p.m1
  let m2 := p.m2
  let l1 := p.l1
  let l2 := p.l2
  let t1 := p.theta1
  let t2 := p.theta2
  let w1 := p.omega1
  let w2 := p.omega2
  let y1 := (-l1) * cos t1
  let y2 := y1 - l2 * cos t2
  let vx1 := l1 * w1 * cos t1
  let vy1 := (-l1) * w1 * sin t1
  let v1sq := vx1 * vx1 + vy1 * vy1
  let vx2 := vx1 + l2 * w2 * cos t2
  let vy2 := vy1 - l2 * w2 * sin t2
  let v2sq := vx2 * vx2 + vy2 * vy2
  let KE := 0.5 * m1 * v1sq + 0.5 * m2 * v2sq
  let PE := m1 * G * (y1 + l1 + l2) + m2 * G * (y2 + l1 + l2)
  KE + PE

/-! ### Reference definition of one step, following the specification -/

/-- The 4-dimensional state vector `(theta1, theta2, omega1, omega2)`. -/
structure Vec4 (R : Type) where
  th1 : R
  th2 : R
  w1 : R
  w2 : R
deriving DecidableEq

/-- Componentwise sum. -/
def Vec4.add (a b : Vec4 R) : Vec4 R :=
  ⟨a.th1 + b.th1, a.th2 + b.th2, a.w1 + b.w1, a.w2 + b.w2⟩

/-- Multiplication by a scalar. -/
def Vec4.smul (c : R) (a : Vec4 R) : Vec4 R :=
  ⟨c * a.th1, c * a.th2, c * a.w1, c * a.w2⟩

/-- The vector field `f(y) = (omega1, omega2, alpha1, alpha2)` with
`(alpha1, alpha2) = compute_acc`. -/
def pendulum_field (sin cos : R → R) (p : Pendulum R) (y : Vec4 R) : Option (Vec4 R) :=
  (compute_acc sin cos p y.th1 y.th2 y.w1 y.w2).map fun a => ⟨y.w1, y.w2, a.1, a.2⟩

/-- One classical RK4 step: `k1 = f(y)`, `k2 = f(y + dt/2*k1)`,
`k3 = f(y + dt/2*k2)`, `k4 = f(y + dt*k3)`,
`y' = y + dt*(k1 + 2*k2 + 2*k3 + k4)/6`. -/
def rk4_step (f : Vec4 R → Option (Vec4 R)) (dt : R) (y : Vec4 R) : Option (Vec4 R) :=
  (f y).bind fun k1 =>
    (f (y.add (Vec4.smul (dt / 2) k1))).bind fun k2 =>
      (f (y.add (Vec4.smul (dt / 2) k2))).bind fun k3 =>
        (f (y.add (Vec4.smul dt k3))).bind fun k4 =>
          some (y.add (Vec4.smul (1 / 6)
            (Vec4.smul dt ((k1.add (Vec4.smul 2 k2)).add ((Vec4.smul 2 k3).add k4)))))

/-- Reference step: RK4 on the state vector, then both angular velocities (not
the angles) are multiplied by `1 - damping` exactly when `damping > 0`; the
parameters are kept. -/
def pendulum_step_ref (sin cos : R → R) (p : Pendulum R) (dt : R) : Option (Pendulum R) :=
  (rk4_step (pendulum_field sin cos p) dt ⟨p.theta1, p.theta2, p.omega1, p.omega2⟩).map fun y =>
    if p.damping > 0 then
      { p with theta1 := y.th1, theta2 := y.th2
               omega1 := y.w1 * (1 - p.damping), omega2 := y.w2 * (1 - p.damping) }
    else
      { p with theta1 := y.th1, theta2 := y.th2, omega1 := y.w1, omega2 := y.w2 }

end Physics

/-! ## Trail buffer: lemmas -/

theorem mapM_range'_eq_some {β : Type} (f : Nat → Option β) :
    ∀ (L : List β) (s : Nat), (∀ i, i < L.length → f (s + i) = L[i]?) →
      (List.range' s L.length).mapM f = some L
  | [], _, _ => by
    rw [List.length_nil, List.range'_zero, List.mapM_nil]; rfl
  | b :: L, s, h => by
    have h0 : f s = some b := by simpa using h 0 (by simp)
    have ih := mapM_range'_eq_some f L (s + 1) (fun i hi => by
      have := h (i + 1) (by simpa using hi)
      simpa [Nat.add_assoc, Nat.add_comm 1 i] using this)
    rw [List.length_cons, List.range'_succ, List.mapM_cons, h0, ih]; rfl

theorem mapM_range_eq_some {β : Type} (f : Nat → Option β) (L : List β)
    (h : ∀ i, i < L.length → f i = L[i]?) :
    (List.range L.length).mapM f = some L := by
  rw [List.range_eq_range']
  exact mapM_range'_eq_some f L 0 (fun i hi => by simpa using h i hi)

theorem load_natCast {α : Type} (a : List α) (s : Nat) : load a (s : Int) = a[s]? := by
  simp [load]

theorem store_natCast {α : Type} (a : List α) (s : Nat) (v : α) :
    store a (s : Int) v = a.set s v := by
  simp [store]

theorem mod_ne_of_lt {c k n : Nat} (hk : k < n) (hn : n - k < c) : k % c ≠ n % c := by
  intro h
  have h1 : (n - k) % c = 0 := Nat.sub_mod_eq_zero_of_mod_eq h.symm
  have h2 : c ∣ n - k := Nat.dvd_of_mod_eq_zero h1
  have h3 : c ≤ n - k := Nat.le_of_dvd (by omega) h2
  omega

theorem wrap32_of_range {x : Int} (h1 : -2147483648 ≤ x) (h2 : x < 2147483648) :
    wrap32 x = x := by
  unfold wrap32; omega

theorem mapM_eq_none_of_mem {β : Type} (f : Nat → Option β) {a : Nat} (hf : f a = none) :
    ∀ l : List Nat, a ∈ l → l.mapM f = none
  | [], h => by cases h
  | b :: l, h => by
    rw [List.mapM_cons]
    cases hb : f b with
    | none => rfl
    | some v =>
      have hne : a ≠ b := fun e => by rw [e, hb] at hf; cases hf
      have hmem : a ∈ l := by
        rcases List.mem_cons.mp h with e | e
        · exact absurd e hne
        · exact e
      rw [mapM_eq_none_of_mem f hf l hmem]; rfl

theorem trail_start_of_rep {α : Type} {t : Trail α} {c : Nat} {pts : List (α × α)}
    (h : TrailRep t c pts) (hb : c ≤ 1073741824) :
    trail_start t = (((pts.length % c + c - min pts.length c) % c : Nat) : Int) := by
  obtain ⟨hc, hmax, -, -, hhead, hcount, -⟩ := h
  have hle : min pts.length c ≤ c := Nat.min_le_right _ _
  have hmodlt : pts.length % c < c := Nat.mod_lt _ hc
  have e0 : wrap32 (t.head - t.count) = t.head - t.count :=
    wrap32_of_range (by rw [hhead, hcount]; omega) (by rw [hhead, hcount]; omega)
  have e1 : t.head - t.count + t.max_points
      = ((pts.length % c + c - min pts.length c : Nat) : Int) := by
    rw [hhead, hcount, hmax]; omega
  have e2 : wrap32 (t.head - t.count + t.max_points) = t.head - t.count + t.max_points :=
    wrap32_of_range (by rw [e1]; omega) (by rw [e1]; omega)
  unfold trail_start
  rw [e0, e2, e1, hmax, ← Int.ofNat_tmod]

theorem trail_start_bounds {α : Type} {t : Trail α} {c : Nat} {pts : List (α × α)}
    (h : TrailRep t c pts) (hb : c ≤ 1073741824) :
    0 ≤ trail_start t ∧ trail_start t < (c : Int) := by
  have hlt : (pts.length % c + c - min pts.length c) % c < c := Nat.mod_lt _ h.1
  rw [trail_start_of_rep h hb]
  omega

theorem trail_slot_of_rep {α : Type} {t : Trail α} {c : Nat} {pts : List (α × α)}
    (h : TrailRep t c pts) (hb : c ≤ 1073741824) (i : Nat) (hi : i < c) :
    trail_slot t i = (((pts.length - min pts.length c + i) % c : Nat) : Int) := by
  have hc := h.1
  have hmax := h.2.1
  have hsb := trail_start_bounds h hb
  have ew : wrap32 (trail_start t + (i : Int)) = trail_start t + (i : Int) :=
    wrap32_of_range (by omega) (by omega)
  unfold trail_slot
  rw [ew, trail_start_of_rep h hb, hmax, ← Int.natCast_add, ← Int.ofNat_tmod]
  congr 1
  by_cases hn : pts.length < c
  · have hm : min pts.length c = pts.length := Nat.min_eq_left (le_of_lt hn)
    rw [hm, Nat.mod_eq_of_lt hn]
    have : pts.length + c - pts.length = c := by omega
    simp [this]
  · have hm : min pts.length c = c := Nat.min_eq_right (by omega)
    rw [hm]
    have e2 : pts.length % c + c - c = pts.length % c := by omega
    have e3 : pts.length - c + i + c = pts.length + i := by omega
    rw [e2, Nat.mod_mod, Nat.mod_add_mod, ← e3, Nat.add_mod_right]

theorem trail_point_of_rep {α : Type} {t : Trail α} {c : Nat} {pts : List (α × α)}
    (h : TrailRep t c pts) (hb : c ≤ 1073741824) (i : Nat) (hi : i < min pts.length c) :
    trail_point t i = (pts.drop (pts.length - min pts.length c))[i]? := by
  have hstore := h.2.2.2.2.2.2
  have hic : i < c := by omega
  have hk1 : pts.length - c ≤ pts.length - min pts.length c + i := by omega
  have hk2 : pts.length - min pts.length c + i < pts.length := by omega
  obtain ⟨hx, hy⟩ := hstore _ hk1 hk2
  simp only [trail_point, trail_slot_of_rep h hb i hic, load_natCast, hx, hy,
    List.getElem?_drop]
  rw [List.getElem?_eq_getElem hk2]
  simp

theorem trail_point_eq_some {α : Type} {t : Trail α} {i : Nat} {a : α × α}
    (h : trail_point t i = some a) :
    load t.xs (trail_slot t i) = some a.1 ∧ load t.ys (trail_slot t i) = some a.2 := by
  unfold trail_point at h
  cases hx : load t.xs (trail_slot t i) with
  | none => simp [hx] at h
  | some x =>
    cases hy : load t.ys (trail_slot t i) with
    | none => simp [hx, hy] at h
    | some y =>
      simp only [hx, hy, Option.some_bind, Option.some.injEq] at h
      subst h
      exact ⟨rfl, rfl⟩

theorem trail_points_of_rep {α : Type} {t : Trail α} {c : Nat} {pts : List (α × α)}
    (h : TrailRep t c pts) (hb : c ≤ 1073741824) :
    trail_points t = some (pts.drop (pts.length - min pts.length c)) := by
  have hcount := h.2.2.2.2.2.1
  have hlen : (pts.drop (pts.length - min pts.length c)).length = min pts.length c := by
    rw [List.length_drop]; omega
  have hcnt : t.count.toNat = (pts.drop (pts.length - min pts.length c)).length := by
    rw [hlen, hcount]; exact Int.toNat_natCast _
  unfold trail_points
  rw [hcnt]
  apply mapM_range_eq_some
  intro i hi
  rw [hlen] at hi
  exact trail_point_of_rep h hb i hi

theorem trail_render_of_rep {α : Type} (px : α → Int) {t : Trail α} {c : Nat}
    {pts : List (α × α)} (h : TrailRep t c pts) (hb : c ≤ 1073741824) :
    trail_render px t = some
      (((pts.drop (pts.length - min pts.length c)).zip
        ((pts.drop (pts.length - min pts.length c)).drop 1)).map
          fun s => ((px s.1.1, px s.1.2), (px s.2.1, px s.2.2))) := by
  have hcount := h.2.2.2.2.2.1
  have hsb := trail_start_bounds h hb
  generalize hL : pts.drop (pts.length - min pts.length c) = L
  have hlen : L.length = min pts.length c := by
    rw [← hL, List.length_drop]; omega
  unfold trail_render
  split_ifs with h2
  · have : L.length < 2 := by rw [hlen]; omega
    match L, this with
    | [], _ => simp
    | [_], _ => simp
  · have hzl : ((L.zip (L.drop 1)).map
        fun s => ((px s.1.1, px s.1.2), (px s.2.1, px s.2.2))).length
          = (t.count - 1).toNat := by
      rw [List.length_map, List.length_zip, List.length_drop, hlen, hcount]; omega
    rw [← hzl]
    apply mapM_range_eq_some
    intro i hi
    have hi' : i + 1 < min pts.length c := by
      rw [hzl, hcount] at hi; omega
    have hle : min pts.length c ≤ c := Nat.min_le_right _ _
    have ew0 : wrap32 (trail_start t + (i : Int)) = trail_start t + (i : Int) :=
      wrap32_of_range (by omega) (by omega)
    have hk : wrap32 (wrap32 (trail_start t + (i : Int)) + 1)
        = wrap32 (trail_start t + ((i + 1 : Nat) : Int)) := by
      rw [ew0]; congr 1; push_cast; ring
    have p0 := trail_point_of_rep h hb i (by omega)
    have p1 := trail_point_of_rep h hb (i + 1) hi'
    rw [hL] at p0 p1
    have g0 : L[i]? = some L[i] := List.getElem?_eq_getElem (by omega)
    have g1 : L[i + 1]? = some L[i + 1] := List.getElem?_eq_getElem (by omega)
    rw [g0] at p0
    rw [g1] at p1
    have q0 := trail_point_eq_some p0
    have q1 := trail_point_eq_some p1
    unfold trail_slot at q0 q1
    have hz : (L.zip (L.drop 1))[i]? = some (L[i], L[i + 1]) := by
      rw [List.getElem?_zip_eq_some]
      refine ⟨g0, ?_⟩
      rw [List.getElem?_drop, Nat.add_comm 1 i]; exact g1
    simp only [hk, q0.1, q0.2, q1.1, q1.2, Option.some_bind, List.getElem?_map, hz,
      Option.map_some']

theorem trailRep_create {α : Type} {c : Int} {mem : Mallocs α} {t : Trail α}
    (h : trail_create c mem = some t) : TrailRep t c.toNat [] := by
  unfold trail_create at h
  split_ifs at h with h1 h2
  split at h
  · cases h
  · split at h
    · cases h
    · cases h
      have hc : 0 < c := by omega
      refine ⟨by omega, by simp; omega, by simp, by simp, by simp, by simp, ?_⟩
      intro k _ hk
      simp at hk

theorem trailRep_clear {α : Type} {t : Trail α} {c : Nat} {pts : List (α × α)}
    (h : TrailRep t c pts) : TrailRep (trail_clear t) c [] := by
  obtain ⟨hc, hmax, hxs, hys, -, -, -⟩ := h
  refine ⟨hc, hmax, hxs, hys, by simp [trail_clear], by simp [trail_clear], ?_⟩
  intro k _ hk
  simp at hk

theorem trailRep_push {α : Type} {t : Trail α} {c : Nat} {pts : List (α × α)}
    (h : TrailRep t c pts) (x y : α) : TrailRep (trail_push t x y) c (pts ++ [(x, y)]) := by
  obtain ⟨hc, hmax, hxs, hys, hhead, hcount, hstore⟩ := h
  have hmodlt : pts.length % c < c := Nat.mod_lt _ hc
  have hhead' : Int.tmod (t.head + 1) t.max_points = (((pts.length + 1) % c : Nat) : Int) := by
    rw [hhead, hmax, ← Int.natCast_one, ← Int.natCast_add, ← Int.ofNat_tmod]
    congr 1
    rw [Nat.mod_add_mod]
  have hxs' : (trail_push t x y).xs = t.xs.set (pts.length % c) x := by
    unfold trail_push; simp only [hhead, store_natCast]; split_ifs <;> rfl
  have hys' : (trail_push t x y).ys = t.ys.set (pts.length % c) y := by
    unfold trail_push; simp only [hhead, store_natCast]; split_ifs <;> rfl
  have hmax' : (trail_push t x y).max_points = t.max_points := by
    unfold trail_push; simp only; split_ifs <;> rfl
  have hhd : (trail_push t x y).head = (((pts.length + 1) % c : Nat) : Int) := by
    rw [← hhead']; unfold trail_push; simp only; split_ifs <;> rfl
  have hcnt : (trail_push t x y).count = ((min (pts.length + 1) c : Nat) : Int) := by
    unfold trail_push; simp only [hcount, hmax]
    split_ifs with hlt
    · simp only; omega
    · simp only; omega
  refine ⟨hc, by rw [hmax', hmax], by rw [hxs']; simpa using hxs, by rw [hys']; simpa using hys,
    by simpa using hhd, by simpa using hcnt, ?_⟩
  intro k hk1 hk2
  simp only [List.length_append, List.length_singleton] at hk1 hk2
  rw [hxs', hys']
  by_cases hk : k = pts.length
  · subst hk
    simp [List.getElem?_set_self, hxs, hys, hmodlt]
  · have hklt : k < pts.length := by omega
    have hne : pts.length % c ≠ k % c := fun e => mod_ne_of_lt hklt (by omega) e.symm
    obtain ⟨hx, hy⟩ := hstore k (by omega) hklt
    rw [List.getElem?_set_ne hne, List.getElem?_set_ne hne, hx, hy,
      List.getElem?_append_left hklt]
    exact ⟨rfl, rfl⟩

theorem trailRep_run {α : Type} {c : Nat} (ops : List (TrailOp α)) :
    ∀ (t : Trail α) (pts : List (α × α)), TrailRep t c pts →
      TrailRep (trail_run t ops) c (ops.foldl TrailOp.record pts) := by
  induction ops with
  | nil => intro t pts h; exact h
  | cons op ops ih =>
    intro t pts h
    simp only [trail_run, List.foldl_cons]
    apply ih
    cases op with
    | push x y => exact trailRep_push h x y
    | clear => exact trailRep_clear h

/-- Under the representation relation with `c ≤ 2^30` every sum computed by the
traversal of `trail_render` is non-negative and below `2^31`. -/
theorem trail_render_indices_bounded {α : Type} {t : Trail α} {c : Nat} {pts : List (α × α)}
    (h : TrailRep t c pts) (hb : c ≤ 1073741824) :
    0 ≤ t.head - t.count + t.max_points ∧ t.head - t.count + t.max_points < 2147483648 ∧
    ∀ i : Nat, (i : Int) < t.count → 0 ≤ trail_start t + (i : Int) ∧
      trail_start t + (i : Int) < 2147483648 := by
  have hsb := trail_start_bounds h hb
  obtain ⟨hc, hmax, -, -, hhead, hcount, -⟩ := h
  have hmodlt : pts.length % c < c := Nat.mod_lt _ hc
  have hle : min pts.length c ≤ c := Nat.min_le_right _ _
  refine ⟨by rw [hhead, hcount, hmax]; omega, by rw [hhead, hcount, hmax]; omega, ?_⟩
  intro i hi
  rw [hcount] at hi
  omega

/-- With a full buffer of capacity `2^30 + 1` whose `head` is the last slot, the
sum `idx + i` of the last traversal position is `2^31`: as an `int` it is
negative and the read falls outside the arrays. -/
theorem trail_points_overflow {α : Type} {t : Trail α} {pts : List (α × α)}
    (h : TrailRep t 1073741825 pts) (hlen : pts.length = 2147483649) :
    trail_points t = none := by
  obtain ⟨-, hmax, -, -, hhead, hcount, -⟩ := h
  rw [hlen] at hhead hcount
  have hh : t.head = 1073741824 := by rw [hhead]; norm_num
  have hcn : t.count = 1073741825 := by rw [hcount]; norm_num
  have hm : t.max_points = 1073741825 := by rw [hmax]; norm_num
  have hslot : trail_slot t 1073741824 = -1073741823 := by
    unfold trail_slot trail_start
    rw [hh, hcn, hm]
    decide
  have hpt : trail_point t 1073741824 = none := by
    unfold trail_point
    rw [hslot]
    simp [load]
  unfold trail_points
  apply mapM_eq_none_of_mem _ hpt
  rw [List.mem_range, hcn]
  decide

theorem foldl_record_push {α : Type} (pts : List (α × α)) :
    ∀ acc : List (α × α),
      (pts.map fun q => TrailOp.push q.1 q.2).foldl TrailOp.record acc = acc ++ pts := by
  induction pts with
  | nil => intro acc; simp
  | cons q pts ih => intro acc; simp [List.foldl_cons, TrailOp.record, ih]

theorem trail_create_eq_none_of_nonpos {α : Type} (c : Int) (mem : Mallocs α) (hc : c ≤ 0) :
    trail_create c mem = none := by
  simp [trail_create, hc]

theorem trail_create_isSome {α : Type} (c : Int) (fx fy : Nat → α) (hc : 0 < c) :
    ∃ t, trail_create c ⟨true, some fx, some fy⟩ = some t := by
  have : ¬ c ≤ 0 := by omega
  simp [trail_create, this]

theorem trailInv_of_rep {α : Type} {t : Trail α} {c : Nat} {pts : List (α × α)}
    (h : TrailRep t c pts) : TrailInv t ∧ TrailStorage t ∧ t.max_points = (c : Int) := by
  obtain ⟨hc, hmax, hxs, hys, hhead, hcount, -⟩ := h
  have hmodlt : pts.length % c < c := Nat.mod_lt _ hc
  refine ⟨⟨by omega, by omega, by omega, by omega⟩, ⟨by simp [hmax, hxs], by simp [hmax, hys]⟩, hmax⟩

theorem trailInv_push {α : Type} (t : Trail α) (x y : α) (h : TrailInv t) :
    TrailInv (trail_push t x y) ∧ (trail_push t x y).max_points = t.max_points := by
  obtain ⟨h1, h2, h3, h4⟩ := h
  have hpos : 0 < t.max_points := by omega
  have hmod : Int.tmod (t.head + 1) t.max_points = (t.head + 1) % t.max_points :=
    Int.tmod_eq_emod (by omega) (by omega)
  have hlo : 0 ≤ (t.head + 1) % t.max_points := Int.emod_nonneg _ (by omega)
  have hhi : (t.head + 1) % t.max_points < t.max_points := Int.emod_lt_of_pos _ hpos
  unfold trail_push TrailInv
  simp only [hmod]
  split_ifs with hlt
  · exact ⟨⟨by simp only; omega, by simp only; omega, hlo, hhi⟩, rfl⟩
  · exact ⟨⟨h1, h2, hlo, hhi⟩, rfl⟩

theorem trailStorage_push {α : Type} (t : Trail α) (x y : α) (h : TrailStorage t) :
    TrailStorage (trail_push t x y) := by
  obtain ⟨hx, hy⟩ := h
  unfold trail_push TrailStorage store
  simp only
  split_ifs <;> simp [hx, hy]

theorem trailInv_clear {α : Type} (t : Trail α) (h : TrailInv t) :
    TrailInv (trail_clear t) ∧ (trail_clear t).max_points = t.max_points ∧
      (trail_clear t).xs = t.xs ∧ (trail_clear t).ys = t.ys := by
  obtain ⟨h1, h2, h3, h4⟩ := h
  refine ⟨⟨?_, ?_, ?_, ?_⟩, rfl, rfl, rfl⟩ <;> simp only [trail_clear] <;> omega

theorem pushed_since_clear_replicate {α : Type} (n : Nat) (x y : α) :
    pushed_since_clear (List.replicate n (TrailOp.push x y)) = List.replicate n (x, y) := by
  have e : List.replicate n (TrailOp.push x y)
      = (List.replicate n (x, y)).map fun q => TrailOp.push q.1 q.2 := by
    rw [List.map_replicate]
  rw [pushed_since_clear, e, foldl_record_push, List.nil_append]

/-- For a capacity of at most `2^30`, after creation and any sequence of calls,
`trail_render` draws the segments joining consecutive points of the
oldest-first traversal, at their pixel positions. -/
theorem trail_render_segments {α : Type} (px : α → Int) (c : Int) (mem : Mallocs α)
    (t0 : Trail α) (hb : c ≤ 1073741824) (hcreate : trail_create c mem = some t0)
    (ops : List (TrailOp α)) :
    ∃ pts, trail_points (trail_run t0 ops) = some pts ∧
      trail_render px (trail_run t0 ops) = some ((pts.zip (pts.drop 1)).map
        fun s => ((px s.1.1, px s.1.2), (px s.2.1, px s.2.2))) :=
  ⟨_, trail_points_of_rep (trailRep_run ops t0 [] (trailRep_create hcreate)) (by omega),
    trail_render_of_rep px (trailRep_run ops t0 [] (trailRep_create hcreate)) (by omega)⟩

/-! ### Claims on the trail buffer -/

/-- C1 as stated fails for a capacity above `2^30`: with capacity `2^30 + 1`
and `2^31 + 1` pushes the buffer is full with `head` on its last slot, the
`int` sum `idx + i` of the last traversal position overflows, and the traversal
reads outside the arrays instead of yielding the last `2^30 + 1` points. -/
theorem trail_traversal_overflows_large_capacity :
    (0 : Int) < 1073741825 ∧
    ∃ t0 : Trail Nat,
      trail_create 1073741825 ⟨true, some fun _ => 0, some fun _ => 0⟩ = some t0 ∧
      pushed_since_clear (List.replicate 2147483649 (TrailOp.push (7 : Nat) 7))
        = List.replicate 2147483649 (7, 7) ∧
      trail_points (trail_run t0 (List.replicate 2147483649 (TrailOp.push 7 7))) = none ∧
      trail_points (trail_run t0 (List.replicate 2147483649 (TrailOp.push 7 7))) ≠
        some ((pushed_since_clear (List.replicate 2147483649 (TrailOp.push (7 : Nat) 7))).drop
          ((pushed_since_clear (List.replicate 2147483649 (TrailOp.push (7 : Nat) 7))).length
            - min (pushed_since_clear
                (List.replicate 2147483649 (TrailOp.push (7 : Nat) 7))).length
              (1073741825 : Int).toNat)) := by
  refine ⟨by decide, ?_⟩
  obtain ⟨t0, h0⟩ := trail_create_isSome (1073741825 : Int) (fun _ => (0 : Nat)) (fun _ => 0)
    (by decide)
  have hrep0 : TrailRep t0 1073741825 [] := trailRep_create h0
  have hrun := trailRep_run (List.replicate 2147483649 (TrailOp.push (7 : Nat) 7)) t0 [] hrep0
  have hps := pushed_since_clear_replicate 2147483649 (7 : Nat) 7
  rw [pushed_since_clear] at hps
  rw [hps] at hrun
  have hnone := trail_points_overflow hrun (List.length_replicate _ _)
  refine ⟨t0, h0, pushed_since_clear_replicate _ _ _, hnone, ?_⟩
  rw [hnone]
  exact fun e => by cases e

/-- C1, amended: for every capacity `c` with `0 < c ≤ 2^30` and every sequence
of `trail_push` / `trail_clear` calls on the buffer returned by
`trail_create c`, the oldest-first traversal of `trail_render`, computed in
32-bit `int` arithmetic, reads without leaving the arrays exactly the last
`min n c` of the `n` points pushed since creation or the last clear, in push
order.  In particular `c` pushes read back unchanged, one more push drops the
oldest point and appends the new one, and a clear yields the empty sequence. -/
theorem trail_traversal_yields_last_points {α : Type} (c : Int) (mem : Mallocs α)
    (t0 : Trail α) (hc : 0 < c) (hb : c ≤ 1073741824)
    (hcreate : trail_create c mem = some t0) :
    (∀ ops : List (TrailOp α),
      trail_points (trail_run t0 ops) =
        some ((pushed_since_clear ops).drop
          ((pushed_since_clear ops).length - min (pushed_since_clear ops).length c.toNat))) ∧
    (∀ pts : List (α × α), (pts.length : Int) = c →
      trail_points (trail_run t0 (pts.map fun q => TrailOp.push q.1 q.2)) = some pts) ∧
    (∀ (pts : List (α × α)) (x y : α), (pts.length : Int) = c →
      trail_points (trail_run t0 ((pts.map fun q => TrailOp.push q.1 q.2) ++ [TrailOp.push x y]))
        = some (pts.drop 1 ++ [(x, y)])) ∧
    (∀ ops : List (TrailOp α),
      trail_points (trail_run t0 (ops ++ [TrailOp.clear])) = some []) := by
  have hbn : c.toNat ≤ 1073741824 := by omega
  have hgen : ∀ ops : List (TrailOp α),
      trail_points (trail_run t0 ops) =
        some ((pushed_since_clear ops).drop
          ((pushed_since_clear ops).length - min (pushed_since_clear ops).length c.toNat)) :=
    fun ops => trail_points_of_rep (trailRep_run ops t0 [] (trailRep_create hcreate)) hbn
  refine ⟨hgen, ?_, ?_, ?_⟩
  · intro pts hlen
    have hlen' : c.toNat = pts.length := by omega
    rw [hgen, pushed_since_clear, foldl_record_push, hlen']
    simp
  · intro pts x y hlen
    have hlen' : c.toNat = pts.length := by omega
    have hpos : 0 < pts.length := by omega
    rw [hgen, pushed_since_clear, List.foldl_append, foldl_record_push, hlen']
    simp only [List.nil_append, List.foldl_cons, List.foldl_nil, TrailOp.record,
      List.length_append, List.length_singleton]
    have e : pts.length + 1 - min (pts.length + 1) pts.length = 1 := by omega
    rw [e, List.drop_append_of_le_length (by omega)]
  · intro ops
    rw [hgen, pushed_since_clear, List.foldl_append]
    simp [TrailOp.record]

/-- Witness for C1 (amended): capacity 2, three pushes. -/
theorem trail_traversal_yields_last_points_witness :
    (0 : Int) < 2 ∧ (2 : Int) ≤ 1073741824 ∧
    trail_create 2 (⟨true, some fun _ => 0, some fun _ => 0⟩ : Mallocs Nat)
      = some ⟨2, 0, 0, [0, 0], [0, 0]⟩ ∧
    trail_points (trail_run (⟨2, 0, 0, [0, 0], [0, 0]⟩ : Trail Nat)
      [TrailOp.push 1 10, TrailOp.push 2 20, TrailOp.push 3 30]) = some [(2, 20), (3, 30)] :=
  ⟨by decide, by decide, rfl,
    (trail_traversal_yields_last_points 2 ⟨true, some fun _ => 0, some fun _ => 0⟩
      ⟨2, 0, 0, [0, 0], [0, 0]⟩ (by decide) (by decide) rfl).1
      [TrailOp.push 1 10, TrailOp.push 2 20, TrailOp.push 3 30]⟩

/-- C5: the buffer returned by `trail_create c` (`c > 0`) has `count = 0`,
`head = 0`, `max_points = c` and satisfies `0 ≤ count ≤ max_points`,
`0 ≤ head < max_points`; `trail_push` and `trail_clear` preserve that predicate
and the array sizes and leave `max_points` unchanged; the slot written by
`trail_push` lies inside both arrays; hence after any sequence of calls
`count ≤ c`. -/
theorem trail_index_invariant {α : Type} (c : Int) (mem : Mallocs α) (t0 : Trail α)
    (hc : 0 < c) (hcreate : trail_create c mem = some t0) :
    (t0.count = 0 ∧ t0.head = 0 ∧ t0.max_points = c ∧ TrailInv t0 ∧ TrailStorage t0) ∧
    (∀ (t : Trail α) (x y : α), TrailInv t →
      TrailInv (trail_push t x y) ∧ (trail_push t x y).max_points = t.max_points) ∧
    (∀ (t : Trail α) (x y : α), TrailInv t → TrailStorage t →
      TrailStorage (trail_push t x y) ∧
        0 ≤ t.head ∧ t.head.toNat < t.xs.length ∧ t.head.toNat < t.ys.length) ∧
    (∀ t : Trail α, TrailInv t →
      TrailInv (trail_clear t) ∧ (trail_clear t).max_points = t.max_points ∧
        (trail_clear t).xs = t.xs ∧ (trail_clear t).ys = t.ys) ∧
    (∀ ops : List (TrailOp α),
      TrailInv (trail_run t0 ops) ∧ TrailStorage (trail_run t0 ops) ∧
        (trail_run t0 ops).max_points = c ∧ (trail_run t0 ops).count ≤ c) := by
  have hrep := trailRep_create hcreate
  have hcn : ((c.toNat : Nat) : Int) = c := by omega
  have h0 := trailInv_of_rep hrep
  refine ⟨⟨?_, ?_, ?_, h0.1, h0.2.1⟩, trailInv_push, ?_, trailInv_clear, ?_⟩
  · simpa using hrep.2.2.2.2.2.1
  · simpa using hrep.2.2.2.2.1
  · rw [h0.2.2, hcn]
  · intro t x y hinv hst
    obtain ⟨h1, h2, h3, h4⟩ := hinv
    refine ⟨trailStorage_push t x y hst, h3, ?_, ?_⟩
    · rw [hst.1]; omega
    · rw [hst.2]; omega
  · intro ops
    have h := trailInv_of_rep (trailRep_run ops t0 [] hrep)
    refine ⟨h.1, h.2.1, by rw [h.2.2, hcn], ?_⟩
    have := h.1.2.1
    rw [h.2.2, hcn] at this
    exact this

/-- Witness for C5: capacity 2. -/
theorem trail_index_invariant_witness :
    (0 : Int) < 2 ∧
    trail_create 2 (⟨true, some fun _ => 0, some fun _ => 0⟩ : Mallocs Nat)
      = some ⟨2, 0, 0, [0, 0], [0, 0]⟩ ∧
    TrailInv (trail_run (⟨2, 0, 0, [0, 0], [0, 0]⟩ : Trail Nat)
      [TrailOp.push 1 10, TrailOp.push 2 20, TrailOp.push 3 30]) :=
  ⟨by decide, rfl,
    ((trail_index_invariant 2 ⟨true, some fun _ => 0, some fun _ => 0⟩
      ⟨2, 0, 0, [0, 0], [0, 0]⟩ (by decide) rfl).2.2.2.2
      [TrailOp.push 1 10, TrailOp.push 2 20, TrailOp.push 3 30]).1⟩

/-! ## Physics: lemmas -/

section PhysicsLemmas

variable {R : Type} [LinearOrderedField R]

theorem clamp_den_abs_ge (d : R) : (1e-12 : R) ≤ |clamp_den d| := by
  unfold clamp_den
  split_ifs with h1 h2
  · rw [abs_neg, abs_of_pos (by norm_num)]
  · rw [abs_of_pos (by norm_num)]
  · exact not_lt.mp h1

theorem clamp_den_ne_zero (d : R) : clamp_den d ≠ 0 := by
  intro h
  have := clamp_den_abs_ge d
  rw [h, abs_zero] at this
  norm_num at this

theorem clamp_den_of_le_abs {d : R} (h : (1e-12 : R) ≤ |d|) : clamp_den d = d := by
  unfold clamp_den
  rw [if_neg (not_lt.mpr h)]

theorem clamp_den_neg {d : R} (h : d < 0) : clamp_den d < 0 := by
  unfold clamp_den
  split_ifs
  · norm_num
  · exact h

theorem clamp_den_pos {d : R} (h : 0 < d) : 0 < clamp_den d := by
  unfold clamp_den
  split_ifs with h1 h2
  · exact absurd h (not_lt.mpr (le_of_lt h2))
  · norm_num
  · exact h

theorem fdiv_of_ne_zero (a : R) {b : R} (h : b ≠ 0) : fdiv a b = some (a / b) := by
  simp [fdiv, h]

theorem fdiv_zero (a : R) : fdiv a (0 : R) = none := by
  simp [fdiv]

theorem acc_den1_ne_zero (cos : R → R) (p : Pendulum R) (th1 th2 : R) :
    acc_den1 cos p th1 th2 ≠ 0 :=
  clamp_den_ne_zero _

theorem acc_den2_of_ne_zero (cos : R → R) (p : Pendulum R) (th1 th2 : R) (hl : p.l1 ≠ 0) :
    acc_den2 cos p th1 th2 = some (clamp_den (p.l2 / p.l1 * acc_den1 cos p th1 th2)) := by
  simp [acc_den2, acc_den2_raw, fdiv, hl]

theorem acc_den2_of_zero (cos : R → R) (p : Pendulum R) (th1 th2 : R) (hl : p.l1 = 0) :
    acc_den2 cos p th1 th2 = none := by
  simp [acc_den2, acc_den2_raw, fdiv, hl]

theorem compute_acc_of_ne_zero (sin cos : R → R) (p : Pendulum R) (th1 th2 w1 w2 : R)
    (hl : p.l1 ≠ 0) :
    compute_acc sin cos p th1 th2 w1 w2 =
      some (acc_num1 sin cos p th1 th2 w1 w2 / acc_den1 cos p th1 th2,
        acc_num2 sin cos p th1 th2 w1 w2 /
          clamp_den (p.l2 / p.l1 * acc_den1 cos p th1 th2)) := by
  unfold compute_acc
  rw [acc_den2_of_ne_zero cos p th1 th2 hl]
  simp [fdiv, clamp_den_ne_zero, acc_den1_ne_zero]

theorem compute_acc_of_zero (sin cos : R → R) (p : Pendulum R) (th1 th2 w1 w2 : R)
    (hl : p.l1 = 0) : compute_acc sin cos p th1 th2 w1 w2 = none := by
  unfold compute_acc
  rw [acc_den2_of_zero cos p th1 th2 hl]
  rfl

theorem pendulum_step_of_zero (sin cos : R → R) (p : Pendulum R) (dt : R) (hl : p.l1 = 0) :
    pendulum_step sin cos p dt = none := by
  unfold pendulum_step
  simp only [compute_acc_of_zero sin cos p _ _ _ _ hl]
  rfl

/-- The Euler-Lagrange equations hold for the output of `compute_acc` when
neither denominator is clamped. -/
theorem compute_acc_euler_lagrange (sin cos : R → R) (p : Pendulum R) (th1 th2 w1 w2 : R)
    (hl : p.l1 ≠ 0)
    (h1 : (1e-12 : R) ≤ |(p.m1 + p.m2) * p.l1 - p.m2 * p.l1 * cos (th2 - th1) * cos (th2 - th1)|)
    (h2 : (1e-12 : R) ≤
      |p.l2 / p.l1 *
        ((p.m1 + p.m2) * p.l1 - p.m2 * p.l1 * cos (th2 - th1) * cos (th2 - th1))|) :
    ∃ a1 a2 : R, compute_acc sin cos p th1 th2 w1 w2 = some (a1, a2) ∧
      (p.m1 + p.m2) * p.l1 * a1 + p.m2 * p.l2 * a2 * cos (th2 - th1)
        - p.m2 * p.l2 * w2 ^ 2 * sin (th2 - th1) + (p.m1 + p.m2) * G * sin th1 = 0 ∧
      p.l2 * a2 + p.l1 * a1 * cos (th2 - th1) + p.l1 * w1 ^ 2 * sin (th2 - th1)
        + G * sin th2 = 0 := by
  have hd1 : acc_den1 cos p th1 th2
      = (p.m1 + p.m2) * p.l1 - p.m2 * p.l1 * cos (th2 - th1) * cos (th2 - th1) :=
    clamp_den_of_le_abs h1
  have hd2 : clamp_den (p.l2 / p.l1 * acc_den1 cos p th1 th2)
      = p.l2 / p.l1 *
        ((p.m1 + p.m2) * p.l1 - p.m2 * p.l1 * cos (th2 - th1) * cos (th2 - th1)) := by
    rw [hd1]; exact clamp_den_of_le_abs h2
  have hne1 : (p.m1 + p.m2) * p.l1 - p.m2 * p.l1 * cos (th2 - th1) * cos (th2 - th1) ≠ 0 := by
    intro h0; rw [h0, abs_zero] at h1; norm_num at h1
  have hne2 : p.l2 / p.l1 *
      ((p.m1 + p.m2) * p.l1 - p.m2 * p.l1 * cos (th2 - th1) * cos (th2 - th1)) ≠ 0 := by
    intro h0; rw [h0, abs_zero] at h2; norm_num at h2
  have hl2 : p.l2 ≠ 0 := by
    intro h0; apply hne2; rw [h0]; simp
  refine ⟨_, _, compute_acc_of_ne_zero sin cos p th1 th2 w1 w2 hl, ?_, ?_⟩
  · rw [hd2, hd1]
    simp only [acc_num1, acc_num2]
    field_simp
    ring
  · rw [hd2, hd1]
    simp only [acc_num1, acc_num2]
    field_simp
    ring

end PhysicsLemmas

section StepRefinement

variable {R : Type} [LinearOrderedField R]

theorem option_bind_map_pair {β γ δ : Type} (x : Option β) (g : β → γ) (f : γ → Option δ) :
    (x.map g).bind f = x.bind fun a => f (g a) := by
  cases x <;> rfl

theorem option_bind_congr_fun {β γ : Type} (x : Option β) (f g : β → Option γ)
    (h : ∀ a, f a = g a) : x.bind f = x.bind g := by
  cases x
  · rfl
  · exact h _

theorem option_map_bind_some {β γ δ : Type} (x : Option β) (f : β → Option γ) (g : γ → δ) :
    (x.bind f).map g = x.bind fun a => (f a).map g := by
  cases x <;> rfl

/-- The hand-unrolled `pendulum_step` is the reference RK4 step. -/
theorem pendulum_step_eq_ref (sin cos : R → R) (p : Pendulum R) (dt : R) :
    pendulum_step sin cos p dt = pendulum_step_ref sin cos p dt := by
  have key : ∀ x : R, (0.5 : R) * dt * x = dt / 2 * x := by
    intro x
    have h : (0.5 : R) = 1 / 2 := by norm_num
    rw [h]; ring
  unfold pendulum_step pendulum_step_ref rk4_step pendulum_field
  simp only [key, Vec4.add, Vec4.smul, option_bind_map_pair, option_map_bind_some,
    Option.map_some']
  apply option_bind_congr_fun; intro k1
  apply option_bind_congr_fun; intro k2
  apply option_bind_congr_fun; intro k3
  apply option_bind_congr_fun; intro k4
  have e1 : p.theta1 + dt * (p.omega1 + 2.0 * (p.omega1 + dt / 2 * k1.1)
        + 2.0 * (p.omega1 + dt / 2 * k2.1) + (p.omega1 + dt * k3.1)) / 6.0
      = p.theta1 + 1 / 6 * (dt * (p.omega1 + 2 * (p.omega1 + dt / 2 * k1.1)
        + (2 * (p.omega1 + dt / 2 * k2.1) + (p.omega1 + dt * k3.1)))) := by
    norm_num; ring
  have e2 : p.theta2 + dt * (p.omega2 + 2.0 * (p.omega2 + dt / 2 * k1.2)
        + 2.0 * (p.omega2 + dt / 2 * k2.2) + (p.omega2 + dt * k3.2)) / 6.0
      = p.theta2 + 1 / 6 * (dt * (p.omega2 + 2 * (p.omega2 + dt / 2 * k1.2)
        + (2 * (p.omega2 + dt / 2 * k2.2) + (p.omega2 + dt * k3.2)))) := by
    norm_num; ring
  have e3 : p.omega1 + dt * (k1.1 + 2.0 * k2.1 + 2.0 * k3.1 + k4.1) / 6.0
      = p.omega1 + 1 / 6 * (dt * (k1.1 + 2 * k2.1 + (2 * k3.1 + k4.1))) := by
    norm_num; ring
  have e4 : p.omega2 + dt * (k1.2 + 2.0 * k2.2 + 2.0 * k3.2 + k4.2) / 6.0
      = p.omega2 + 1 / 6 * (dt * (k1.2 + 2 * k2.2 + (2 * k3.2 + k4.2))) := by
    norm_num; ring
  have e0 : ((0.0 : R) < p.damping) = (0 < p.damping) := by norm_num
  have e5 : (1.0 : R) = 1 := by norm_num
  simp only [e1, e2, e3, e4, gt_iff_lt, e0, e5]
  split_ifs <;> rfl

end StepRefinement

/-! ## Claims on the physics code, over the reals -/

theorem pendulum_step_keeps_parameters {R : Type} [LinearOrderedField R] (sin cos : R → R)
    (p q : Pendulum R) (dt : R) (h : pendulum_step sin cos p dt = some q) :
    q.m1 = p.m1 ∧ q.m2 = p.m2 ∧ q.l1 = p.l1 ∧ q.l2 = p.l2 ∧ q.damping = p.damping := by
  rw [pendulum_step_eq_ref, pendulum_step_ref, Option.map_eq_some'] at h
  obtain ⟨y, -, hq⟩ := h
  subst hq
  split_ifs <;> exact ⟨rfl, rfl, rfl, rfl, rfl⟩

theorem pendulum_step_isSome {R : Type} [LinearOrderedField R] (sin cos : R → R)
    (p : Pendulum R) (dt : R) (hl : p.l1 ≠ 0) : ∃ q, pendulum_step sin cos p dt = some q := by
  unfold pendulum_step
  simp only [compute_acc_of_ne_zero sin cos p _ _ _ _ hl, Option.some_bind]
  split_ifs <;> exact ⟨_, rfl⟩

/-- C2: `pendulum_step` equals the reference definition, one classical RK4
step of `y = (theta1, theta2, omega1, omega2)` under
`f(y) = (omega1, omega2, alpha1, alpha2)` with every `k` taken from the
pre-step state, followed by the multiplication of both angular velocities by
`1 - damping` exactly when `damping > 0`; a returned state has the same `m1`,
`m2`, `l1`, `l2`, `damping`; and a state is returned whenever `l1 ≠ 0`. -/
theorem pendulum_step_refines_rk4 (p : Pendulum ℝ) (dt : ℝ) :
    pendulum_step Real.sin Real.cos p dt = pendulum_step_ref Real.sin Real.cos p dt ∧
    (∀ q, pendulum_step Real.sin Real.cos p dt = some q →
      q.m1 = p.m1 ∧ q.m2 = p.m2 ∧ q.l1 = p.l1 ∧ q.l2 = p.l2 ∧ q.damping = p.damping) ∧
    (p.l1 ≠ 0 → ∃ q, pendulum_step Real.sin Real.cos p dt = some q) :=
  ⟨pendulum_step_eq_ref _ _ p dt, fun q h => pendulum_step_keeps_parameters _ _ p q dt h,
    pendulum_step_isSome _ _ p dt⟩

/-- Witness for C2: the default parameters hanging at rest, `dt = 0.008`. -/
theorem pendulum_step_refines_rk4_witness :
    ∃ q, pendulum_step Real.sin Real.cos (⟨1, 1, 170, 170, 0, 0, 0, 0, 0⟩ : Pendulum ℝ) 0.008
      = some q :=
  (pendulum_step_refines_rk4 ⟨1, 1, 170, 170, 0, 0, 0, 0, 0⟩ 0.008).2.2 (by norm_num)

/-- C3: when neither denominator is clamped (`|den1| ≥ 1e-12`,
`|den2| ≥ 1e-12`, `l1 ≠ 0`), `compute_acc` returns accelerations satisfying
both Euler-Lagrange equations of the double pendulum, with `d = th2 - th1` and
`g = 9.81`. -/
theorem compute_acc_satisfies_euler_lagrange (p : Pendulum ℝ) (th1 th2 w1 w2 : ℝ)
    (hl : p.l1 ≠ 0)
    (h1 : (1e-12 : ℝ) ≤
      |(p.m1 + p.m2) * p.l1 - p.m2 * p.l1 * Real.cos (th2 - th1) * Real.cos (th2 - th1)|)
    (h2 : (1e-12 : ℝ) ≤
      |p.l2 / p.l1 *
        ((p.m1 + p.m2) * p.l1 - p.m2 * p.l1 * Real.cos (th2 - th1) * Real.cos (th2 - th1))|) :
    ∃ a1 a2 : ℝ, compute_acc Real.sin Real.cos p th1 th2 w1 w2 = some (a1, a2) ∧
      (p.m1 + p.m2) * p.l1 * a1 + p.m2 * p.l2 * a2 * Real.cos (th2 - th1)
        - p.m2 * p.l2 * w2 ^ 2 * Real.sin (th2 - th1)
        + (p.m1 + p.m2) * 9.81 * Real.sin th1 = 0 ∧
      p.l2 * a2 + p.l1 * a1 * Real.cos (th2 - th1) + p.l1 * w1 ^ 2 * Real.sin (th2 - th1)
        + 9.81 * Real.sin th2 = 0 :=
  compute_acc_euler_lagrange Real.sin Real.cos p th1 th2 w1 w2 hl h1 h2

/-- Witness for C3: unit masses, lengths 170, angles 1 and 1, velocities 2 and 3. -/
theorem compute_acc_satisfies_euler_lagrange_witness :
    ∃ a1 a2 : ℝ,
      compute_acc Real.sin Real.cos (⟨1, 1, 170, 170, 0, 0, 0, 0, 0⟩ : Pendulum ℝ) 1 1 2 3
        = some (a1, a2) ∧
      ((1 : ℝ) + 1) * 170 * a1 + 1 * 170 * a2 * Real.cos (1 - 1)
        - 1 * 170 * 3 ^ 2 * Real.sin (1 - 1) + (1 + 1) * 9.81 * Real.sin 1 = 0 ∧
      170 * a2 + 170 * a1 * Real.cos (1 - 1) + 170 * 2 ^ 2 * Real.sin (1 - 1)
        + 9.81 * Real.sin 1 = 0 :=
  compute_acc_satisfies_euler_lagrange ⟨1, 1, 170, 170, 0, 0, 0, 0, 0⟩ 1 1 2 3
    (by norm_num) (by norm_num) (by norm_num)

/-- C4 as stated fails: with `l1 = 0` the division `l2 / l1` of `compute_acc`
has a zero divisor, so `den2` has no value and no accelerations are returned. -/
theorem compute_acc_zero_length_divides_by_zero :
    ¬ (∃ d2 : ℝ, acc_den2 Real.cos (⟨1, 1, 0, 0, 0, 0, 0, 0, 0⟩ : Pendulum ℝ) 0 0 = some d2 ∧
        (1e-12 : ℝ) ≤ |d2|) ∧
    fdiv (⟨1, 1, 0, 0, 0, 0, 0, 0, 0⟩ : Pendulum ℝ).l2
      (⟨1, 1, 0, 0, 0, 0, 0, 0, 0⟩ : Pendulum ℝ).l1 = none ∧
    compute_acc Real.sin Real.cos (⟨1, 1, 0, 0, 0, 0, 0, 0, 0⟩ : Pendulum ℝ) 0 0 0 0 = none := by
  refine ⟨?_, fdiv_zero _, compute_acc_of_zero _ _ _ _ _ _ _ rfl⟩
  rintro ⟨d2, h, -⟩
  rw [acc_den2_of_zero _ _ _ _ rfl] at h
  cases h

/-- C4, amended: for every input of `compute_acc` with `l1 ≠ 0` no division by
zero occurs and both values that the numerators are divided by have absolute
value at least `1e-12`: `den1` is used unchanged when `|den1| ≥ 1e-12` and is
otherwise `-1e-12` if negative and `1e-12` if not; `den2 = (l2/l1) * den1`
(with the clamped `den1`) is clamped by the same rule; the clamp keeps the sign
of a non-zero denominator. -/
theorem compute_acc_denominators_clamped (p : Pendulum ℝ) (th1 th2 w1 w2 : ℝ)
    (hl : p.l1 ≠ 0) :
    ∃ d1 d2 r2 a1 a2 : ℝ,
      d1 = acc_den1 Real.cos p th1 th2 ∧
      acc_den2_raw Real.cos p th1 th2 = some r2 ∧ r2 = p.l2 / p.l1 * d1 ∧
      acc_den2 Real.cos p th1 th2 = some d2 ∧
      fdiv (acc_num1 Real.sin Real.cos p th1 th2 w1 w2) d1 = some a1 ∧
      fdiv (acc_num2 Real.sin Real.cos p th1 th2 w1 w2) d2 = some a2 ∧
      compute_acc Real.sin Real.cos p th1 th2 w1 w2 = some (a1, a2) ∧
      (1e-12 : ℝ) ≤ |d1| ∧ (1e-12 : ℝ) ≤ |d2| ∧
      d1 = (if |acc_den1_raw Real.cos p th1 th2| < 1e-12
            then (if acc_den1_raw Real.cos p th1 th2 < 0 then -1e-12 else 1e-12)
            else acc_den1_raw Real.cos p th1 th2) ∧
      d2 = (if |r2| < 1e-12 then (if r2 < 0 then -1e-12 else 1e-12) else r2) ∧
      (acc_den1_raw Real.cos p th1 th2 < 0 → d1 < 0) ∧
      (0 < acc_den1_raw Real.cos p th1 th2 → 0 < d1) ∧
      (r2 < 0 → d2 < 0) ∧ (0 < r2 → 0 < d2) := by
  refine ⟨acc_den1 Real.cos p th1 th2, clamp_den (p.l2 / p.l1 * acc_den1 Real.cos p th1 th2),
    p.l2 / p.l1 * acc_den1 Real.cos p th1 th2, _, _, rfl, ?_, rfl,
    acc_den2_of_ne_zero _ p th1 th2 hl, fdiv_of_ne_zero _ (acc_den1_ne_zero _ _ _ _),
    fdiv_of_ne_zero _ (clamp_den_ne_zero _), compute_acc_of_ne_zero _ _ p th1 th2 w1 w2 hl,
    clamp_den_abs_ge _, clamp_den_abs_ge _, rfl, rfl,
    clamp_den_neg, clamp_den_pos, clamp_den_neg, clamp_den_pos⟩
  simp [acc_den2_raw, fdiv, hl]

/-- Witness for C4 (amended): the default parameters at rest. -/
theorem compute_acc_denominators_clamped_witness :
    ∃ d1 d2 : ℝ, (1e-12 : ℝ) ≤ |d1| ∧ (1e-12 : ℝ) ≤ |d2| ∧
      acc_den2 Real.cos (⟨1, 1, 170, 170, 0, 0, 0, 0, 0⟩ : Pendulum ℝ) 0 0 = some d2 ∧
      d1 = acc_den1 Real.cos (⟨1, 1, 170, 170, 0, 0, 0, 0, 0⟩ : Pendulum ℝ) 0 0 := by
  obtain ⟨d1, d2, r2, a1, a2, h1, -, -, h4, -, -, -, h8, h9, -⟩ :=
    compute_acc_denominators_clamped ⟨1, 1, 170, 170, 0, 0, 0, 0, 0⟩ 0 0 0 0 (by norm_num)
  exact ⟨d1, d2, h8, h9, h4, h1⟩

/-- C6: `pendulum_reset` yields, from any state, exactly the state produced by
`pendulum_init`: `m1 = m2 = 1`, `l1 = l2 = 170`, `theta1 = 0.6*pi`,
`theta2 = 0.4*pi`, zero velocities and zero damping; hence the total energy
after a reset is that of a freshly initialised state. -/
theorem pendulum_reset_restores_defaults (p q : Pendulum ℝ) :
    pendulum_reset Real.pi p = pendulum_init Real.pi q ∧
    pendulum_reset Real.pi p
      = ⟨1, 1, 170, 170, 0.6 * Real.pi, 0.4 * Real.pi, 0, 0, 0⟩ ∧
    pendulum_total_energy Real.sin Real.cos (pendulum_reset Real.pi p)
      = pendulum_total_energy Real.sin Real.cos (pendulum_init Real.pi q) := by
  have h : pendulum_reset Real.pi p = pendulum_init Real.pi q := rfl
  refine ⟨h, ?_, by rw [h]⟩
  simp only [pendulum_reset, pendulum_init, Pendulum.mk.injEq]
  norm_num
  constructor <;> ring

/-- C7: for the default geometry (`m1 = m2 = 1`, `l1 = l2 = 170`) and all real
angles and velocities the kinetic part and the potential part of
`pendulum_total_energy` are non-negative, and so is their sum, the returned
value. -/
theorem pendulum_total_energy_nonneg (th1 th2 w1 w2 damping : ℝ) :
    0 ≤ pendulum_kinetic_energy Real.sin Real.cos ⟨1, 1, 170, 170, th1, th2, w1, w2, damping⟩ ∧
    0 ≤ pendulum_potential_energy Real.cos ⟨1, 1, 170, 170, th1, th2, w1, w2, damping⟩ ∧
    pendulum_total_energy Real.sin Real.cos ⟨1, 1, 170, 170, th1, th2, w1, w2, damping⟩
      = pendulum_kinetic_energy Real.sin Real.cos ⟨1, 1, 170, 170, th1, th2, w1, w2, damping⟩
        + pendulum_potential_energy Real.cos ⟨1, 1, 170, 170, th1, th2, w1, w2, damping⟩ ∧
    0 ≤ pendulum_total_energy Real.sin Real.cos ⟨1, 1, 170, 170, th1, th2, w1, w2, damping⟩ := by
  have hk : 0 ≤ pendulum_kinetic_energy Real.sin Real.cos
      ⟨1, 1, 170, 170, th1, th2, w1, w2, damping⟩ := by
    simp only [pendulum_kinetic_energy]
    have h5 : (0 : ℝ) ≤ 0.5 := by norm_num
    nlinarith [mul_self_nonneg (170 * w1 * Real.cos th1),
      mul_self_nonneg ((-170) * w1 * Real.sin th1),
      mul_self_nonneg (170 * w1 * Real.cos th1 + 170 * w2 * Real.cos th2),
      mul_self_nonneg ((-170) * w1 * Real.sin th1 - 170 * w2 * Real.sin th2)]
  have hp : 0 ≤ pendulum_potential_energy Real.cos
      ⟨1, 1, 170, 170, th1, th2, w1, w2, damping⟩ := by
    simp only [pendulum_potential_energy, G]
    have c1 := Real.cos_le_one th1
    have c2 := Real.cos_le_one th2
    norm_num
    nlinarith
  have ht : pendulum_total_energy Real.sin Real.cos ⟨1, 1, 170, 170, th1, th2, w1, w2, damping⟩
      = pendulum_kinetic_energy Real.sin Real.cos ⟨1, 1, 170, 170, th1, th2, w1, w2, damping⟩
        + pendulum_potential_energy Real.cos ⟨1, 1, 170, 170, th1, th2, w1, w2, damping⟩ := rfl
  exact ⟨hk, hp, ht, by rw [ht]; exact add_nonneg hk hp⟩

/-- C8: for positive masses and lengths with `m1*l1 ≥ 1e-12` and
`m1*l2 ≥ 1e-12` neither clamp branch of `compute_acc` is taken:
`den1 = l1*(m1 + m2*sin²(th2-th1)) ≥ m1*l1 > 0` and
`den2 = l2*(m1 + m2*sin²(th2-th1)) ≥ m1*l2 > 0`, so both conditions
`|den| < 1e-12` are false and both denominators are used unchanged. -/
theorem compute_acc_clamp_unreachable (p : Pendulum ℝ) (th1 th2 : ℝ)
    (hm1 : 0 < p.m1) (hm2 : 0 < p.m2) (hl1 : 0 < p.l1) (hl2 : 0 < p.l2)
    (h1 : (1e-12 : ℝ) ≤ p.m1 * p.l1) (h2 : (1e-12 : ℝ) ≤ p.m1 * p.l2) :
    acc_den1_raw Real.cos p th1 th2 = p.l1 * (p.m1 + p.m2 * Real.sin (th2 - th1) ^ 2) ∧
    p.m1 * p.l1 ≤ acc_den1_raw Real.cos p th1 th2 ∧ 0 < p.m1 * p.l1 ∧
    ¬ |acc_den1_raw Real.cos p th1 th2| < 1e-12 ∧
    acc_den1 Real.cos p th1 th2 = acc_den1_raw Real.cos p th1 th2 ∧
    acc_den2_raw Real.cos p th1 th2
      = some (p.l2 * (p.m1 + p.m2 * Real.sin (th2 - th1) ^ 2)) ∧
    p.m1 * p.l2 ≤ p.l2 * (p.m1 + p.m2 * Real.sin (th2 - th1) ^ 2) ∧ 0 < p.m1 * p.l2 ∧
    ¬ |p.l2 * (p.m1 + p.m2 * Real.sin (th2 - th1) ^ 2)| < 1e-12 ∧
    acc_den2 Real.cos p th1 th2
      = some (p.l2 * (p.m1 + p.m2 * Real.sin (th2 - th1) ^ 2)) := by
  have hpy := Real.sin_sq_add_cos_sq (th2 - th1)
  have hsq : 0 ≤ p.m2 * Real.sin (th2 - th1) ^ 2 := mul_nonneg hm2.le (sq_nonneg _)
  have e1 : acc_den1_raw Real.cos p th1 th2
      = p.l1 * (p.m1 + p.m2 * Real.sin (th2 - th1) ^ 2) := by
    simp only [acc_den1_raw]
    linear_combination (-(p.m2 * p.l1)) * hpy
  have g1 : p.m1 * p.l1 ≤ acc_den1_raw Real.cos p th1 th2 := by
    rw [e1]; nlinarith
  have g2 : p.m1 * p.l2 ≤ p.l2 * (p.m1 + p.m2 * Real.sin (th2 - th1) ^ 2) := by
    nlinarith
  have p1 : 0 < p.m1 * p.l1 := mul_pos hm1 hl1
  have p2 : 0 < p.m1 * p.l2 := mul_pos hm1 hl2
  have n1 : ¬ |acc_den1_raw Real.cos p th1 th2| < 1e-12 := by
    rw [abs_of_pos (lt_of_lt_of_le p1 g1)]; linarith
  have n2 : ¬ |p.l2 * (p.m1 + p.m2 * Real.sin (th2 - th1) ^ 2)| < 1e-12 := by
    rw [abs_of_pos (lt_of_lt_of_le p2 g2)]; linarith
  have d1 : acc_den1 Real.cos p th1 th2 = acc_den1_raw Real.cos p th1 th2 :=
    clamp_den_of_le_abs (not_lt.mp n1)
  have r2 : acc_den2_raw Real.cos p th1 th2
      = some (p.l2 * (p.m1 + p.m2 * Real.sin (th2 - th1) ^ 2)) := by
    simp only [acc_den2_raw, fdiv, if_neg hl1.ne', Option.map_some', d1, e1]
    congr 1
    field_simp
    ring
  refine ⟨e1, g1, p1, n1, d1, r2, g2, p2, n2, ?_⟩
  rw [acc_den2, r2, Option.map_some', clamp_den_of_le_abs (not_lt.mp n2)]

/-- Witness for C8: the default parameters, angles 1 and 2. -/
theorem compute_acc_clamp_unreachable_witness :
    acc_den1 Real.cos (⟨1, 1, 170, 170, 0, 0, 0, 0, 0⟩ : Pendulum ℝ) 1 2
      = acc_den1_raw Real.cos (⟨1, 1, 170, 170, 0, 0, 0, 0, 0⟩ : Pendulum ℝ) 1 2 :=
  (compute_acc_clamp_unreachable ⟨1, 1, 170, 170, 0, 0, 0, 0, 0⟩ 1 2
    (by norm_num) (by norm_num) (by norm_num) (by norm_num)
    (by norm_num) (by norm_num)).2.2.2.2.1

/-- C10 as stated fails: the rest state with `l1 = l2 = 0` satisfies the
hypotheses, but `pendulum_step` divides by zero there and returns no state. -/
theorem pendulum_step_rest_zero_length :
    (⟨1, 1, 0, 0, 0, 0, 0, 0, 0⟩ : Pendulum ℝ).omega1 = 0 ∧
    (⟨1, 1, 0, 0, 0, 0, 0, 0, 0⟩ : Pendulum ℝ).omega2 = 0 ∧
    Real.sin (⟨1, 1, 0, 0, 0, 0, 0, 0, 0⟩ : Pendulum ℝ).theta1 = 0 ∧
    Real.sin (⟨1, 1, 0, 0, 0, 0, 0, 0, 0⟩ : Pendulum ℝ).theta2 = 0 ∧
    pendulum_step Real.sin Real.cos (⟨1, 1, 0, 0, 0, 0, 0, 0, 0⟩ : Pendulum ℝ) 1
      ≠ some ⟨1, 1, 0, 0, 0, 0, 0, 0, 0⟩ := by
  refine ⟨rfl, rfl, Real.sin_zero, Real.sin_zero, ?_⟩
  rw [pendulum_step_of_zero _ _ _ _ rfl]
  exact fun h => by cases h

/-- C10, amended: for all parameters with `l1 ≠ 0`, every `dt` and every state
with `omega1 = omega2 = 0` and `sin theta1 = sin theta2 = 0`, `pendulum_step`
returns the state unchanged. -/
theorem pendulum_step_rest_fixed (p : Pendulum ℝ) (dt : ℝ) (hl : p.l1 ≠ 0)
    (hw1 : p.omega1 = 0) (hw2 : p.omega2 = 0)
    (hs1 : Real.sin p.theta1 = 0) (hs2 : Real.sin p.theta2 = 0) :
    pendulum_step Real.sin Real.cos p dt = some p := by
  have hsd : Real.sin (p.theta2 - p.theta1) = 0 := by
    rw [Real.sin_sub, hs1, hs2]; ring
  have hn1 : acc_num1 Real.sin Real.cos p p.theta1 p.theta2 0 0 = 0 := by
    simp [acc_num1, hsd, hs1, hs2]
  have hn2 : acc_num2 Real.sin Real.cos p p.theta1 p.theta2 0 0 = 0 := by
    simp [acc_num2, hsd, hs1, hs2]
  have hacc : compute_acc Real.sin Real.cos p p.theta1 p.theta2 0 0 = some (0, 0) := by
    rw [compute_acc_of_ne_zero _ _ _ _ _ _ _ hl, hn1, hn2]; simp
  unfold pendulum_step
  simp only [hw1, hw2, mul_zero, add_zero, hacc, Option.some_bind, zero_div]
  obtain ⟨m1, m2, l1, l2, t1, t2, w1, w2, d⟩ := p
  simp only at hw1 hw2
  subst hw1 hw2
  split_ifs <;> simp

/-- Witness for C10 (amended): default parameters, both rods straight down. -/
theorem pendulum_step_rest_fixed_witness :
    pendulum_step Real.sin Real.cos (⟨1, 1, 170, 170, 0, 0, 0, 0, 0⟩ : Pendulum ℝ) 0.008
      = some ⟨1, 1, 170, 170, 0, 0, 0, 0, 0⟩ :=
  pendulum_step_rest_fixed ⟨1, 1, 170, 170, 0, 0, 0, 0, 0⟩ 0.008 (by norm_num) rfl rfl
    Real.sin_zero Real.sin_zero

/-! ## Conservation of the energy by the vector field -/

theorem energy_hasDerivAt_theta1 (p : Pendulum ℝ) :
    HasDerivAt (fun x => pendulum_total_energy Real.sin Real.cos { p with theta1 := x })
      (p.m2 * p.l1 * p.l2 * p.omega1 * p.omega2 *
          (Real.sin p.theta2 * Real.cos p.theta1 - Real.cos p.theta2 * Real.sin p.theta1)
        + (p.m1 + p.m2) * G * p.l1 * Real.sin p.theta1) p.theta1 := by
  unfold pendulum_total_energy
  dsimp only
  apply HasDerivAt.congr_deriv
  · repeat' first
    | exact Real.hasDerivAt_cos _
    | exact Real.hasDerivAt_sin _
    | exact hasDerivAt_const _ _
    | apply HasDerivAt.sub
    | apply HasDerivAt.add
    | apply HasDerivAt.mul
  · ring

theorem energy_hasDerivAt_theta2 (p : Pendulum ℝ) :
    HasDerivAt (fun x => pendulum_total_energy Real.sin Real.cos { p with theta2 := x })
      (p.m2 * p.l1 * p.l2 * p.omega1 * p.omega2 *
          (Real.sin p.theta1 * Real.cos p.theta2 - Real.cos p.theta1 * Real.sin p.theta2)
        + p.m2 * G * p.l2 * Real.sin p.theta2) p.theta2 := by
  unfold pendulum_total_energy
  dsimp only
  apply HasDerivAt.congr_deriv
  · repeat' first
    | exact Real.hasDerivAt_cos _
    | exact Real.hasDerivAt_sin _
    | exact hasDerivAt_const _ _
    | apply HasDerivAt.sub
    | apply HasDerivAt.add
    | apply HasDerivAt.mul
  · ring

theorem energy_hasDerivAt_omega1 (p : Pendulum ℝ) :
    HasDerivAt (fun x => pendulum_total_energy Real.sin Real.cos { p with omega1 := x })
      ((p.m1 + p.m2) * p.l1 ^ 2 * p.omega1
        + p.m2 * p.l1 * p.l2 * p.omega2 *
          (Real.cos p.theta1 * Real.cos p.theta2 + Real.sin p.theta1 * Real.sin p.theta2))
      p.omega1 := by
  unfold pendulum_total_energy
  dsimp only
  apply HasDerivAt.congr_deriv
  · repeat' first
    | exact hasDerivAt_id' _
    | exact hasDerivAt_const _ _
    | apply HasDerivAt.sub
    | apply HasDerivAt.add
    | apply HasDerivAt.mul
  · linear_combination
      ((p.m1 + p.m2) * p.l1 ^ 2 * p.omega1) * Real.cos_sq_add_sin_sq p.theta1

theorem energy_hasDerivAt_omega2 (p : Pendulum ℝ) :
    HasDerivAt (fun x => pendulum_total_energy Real.sin Real.cos { p with omega2 := x })
      (p.m2 * p.l2 ^ 2 * p.omega2
        + p.m2 * p.l1 * p.l2 * p.omega1 *
          (Real.cos p.theta1 * Real.cos p.theta2 + Real.sin p.theta1 * Real.sin p.theta2))
      p.omega2 := by
  unfold pendulum_total_energy
  dsimp only
  apply HasDerivAt.congr_deriv
  · repeat' first
    | exact hasDerivAt_id' _
    | exact hasDerivAt_const _ _
    | apply HasDerivAt.sub
    | apply HasDerivAt.add
    | apply HasDerivAt.mul
  · linear_combination
      (p.m2 * p.l2 ^ 2 * p.omega2) * Real.cos_sq_add_sin_sq p.theta2

/-- The energy has zero derivative along the field, for `l1 ≠ 0` and unclamped
denominators. -/
theorem energy_derivative_along_field (p : Pendulum ℝ) (hl : p.l1 ≠ 0)
    (h1 : (1e-12 : ℝ) ≤
      |(p.m1 + p.m2) * p.l1
        - p.m2 * p.l1 * Real.cos (p.theta2 - p.theta1) * Real.cos (p.theta2 - p.theta1)|)
    (h2 : (1e-12 : ℝ) ≤
      |p.l2 / p.l1 *
        ((p.m1 + p.m2) * p.l1
          - p.m2 * p.l1 * Real.cos (p.theta2 - p.theta1) * Real.cos (p.theta2 - p.theta1))|) :
    ∃ a1 a2 dE1 dE2 dE3 dE4 : ℝ,
      compute_acc Real.sin Real.cos p p.theta1 p.theta2 p.omega1 p.omega2 = some (a1, a2) ∧
      HasDerivAt (fun x => pendulum_total_energy Real.sin Real.cos { p with theta1 := x })
        dE1 p.theta1 ∧
      HasDerivAt (fun x => pendulum_total_energy Real.sin Real.cos { p with theta2 := x })
        dE2 p.theta2 ∧
      HasDerivAt (fun x => pendulum_total_energy Real.sin Real.cos { p with omega1 := x })
        dE3 p.omega1 ∧
      HasDerivAt (fun x => pendulum_total_energy Real.sin Real.cos { p with omega2 := x })
        dE4 p.omega2 ∧
      dE1 * p.omega1 + dE2 * p.omega2 + dE3 * a1 + dE4 * a2 = 0 := by
  obtain ⟨a1, a2, hacc, el1, el2⟩ :=
    compute_acc_euler_lagrange Real.sin Real.cos p p.theta1 p.theta2 p.omega1 p.omega2 hl h1 h2
  refine ⟨a1, a2, _, _, _, _, hacc, energy_hasDerivAt_theta1 p, energy_hasDerivAt_theta2 p,
    energy_hasDerivAt_omega1 p, energy_hasDerivAt_omega2 p, ?_⟩
  rw [Real.cos_sub, Real.sin_sub] at el1 el2
  linear_combination (p.omega1 * p.l1) * el1 + (p.omega2 * p.m2 * p.l2) * el2

/-- C9: `pendulum_total_energy` is conserved by the vector field that
`pendulum_step` integrates: for positive masses and lengths and unclamped
denominators, with `(alpha1, alpha2)` returned by `compute_acc`, the partial
derivatives of the energy satisfy
`dE/dtheta1*omega1 + dE/dtheta2*omega2 + dE/domega1*alpha1 + dE/domega2*alpha2 = 0`. -/
theorem pendulum_total_energy_conserved (p : Pendulum ℝ)
    (_hm1 : 0 < p.m1) (_hm2 : 0 < p.m2) (hl1 : 0 < p.l1) (_hl2 : 0 < p.l2)
    (h1 : (1e-12 : ℝ) ≤
      |(p.m1 + p.m2) * p.l1
        - p.m2 * p.l1 * Real.cos (p.theta2 - p.theta1) * Real.cos (p.theta2 - p.theta1)|)
    (h2 : (1e-12 : ℝ) ≤
      |p.l2 / p.l1 *
        ((p.m1 + p.m2) * p.l1
          - p.m2 * p.l1 * Real.cos (p.theta2 - p.theta1) * Real.cos (p.theta2 - p.theta1))|) :
    ∃ a1 a2 dE1 dE2 dE3 dE4 : ℝ,
      compute_acc Real.sin Real.cos p p.theta1 p.theta2 p.omega1 p.omega2 = some (a1, a2) ∧
      HasDerivAt (fun x => pendulum_total_energy Real.sin Real.cos { p with theta1 := x })
        dE1 p.theta1 ∧
      HasDerivAt (fun x => pendulum_total_energy Real.sin Real.cos { p with theta2 := x })
        dE2 p.theta2 ∧
      HasDerivAt (fun x => pendulum_total_energy Real.sin Real.cos { p with omega1 := x })
        dE3 p.omega1 ∧
      HasDerivAt (fun x => pendulum_total_energy Real.sin Real.cos { p with omega2 := x })
        dE4 p.omega2 ∧
      dE1 * p.omega1 + dE2 * p.omega2 + dE3 * a1 + dE4 * a2 = 0 :=
  energy_derivative_along_field p hl1.ne' h1 h2

/-- Witness for C9: default parameters, both angles 1, velocities 2 and 3. -/
theorem pendulum_total_energy_conserved_witness :
    ∃ a1 a2 dE1 dE2 dE3 dE4 : ℝ,
      compute_acc Real.sin Real.cos (⟨1, 1, 170, 170, 1, 1, 2, 3, 0⟩ : Pendulum ℝ) 1 1 2 3
        = some (a1, a2) ∧
      HasDerivAt (fun x => pendulum_total_energy Real.sin Real.cos
        (⟨1, 1, 170, 170, x, 1, 2, 3, 0⟩ : Pendulum ℝ)) dE1 1 ∧
      HasDerivAt (fun x => pendulum_total_energy Real.sin Real.cos
        (⟨1, 1, 170, 170, 1, x, 2, 3, 0⟩ : Pendulum ℝ)) dE2 1 ∧
      HasDerivAt (fun x => pendulum_total_energy Real.sin Real.cos
        (⟨1, 1, 170, 170, 1, 1, x, 3, 0⟩ : Pendulum ℝ)) dE3 2 ∧
      HasDerivAt (fun x => pendulum_total_energy Real.sin Real.cos
        (⟨1, 1, 170, 170, 1, 1, 2, x, 0⟩ : Pendulum ℝ)) dE4 3 ∧
      dE1 * 2 + dE2 * 3 + dE3 * a1 + dE4 * a2 = 0 :=
  pendulum_total_energy_conserved ⟨1, 1, 170, 170, 1, 1, 2, 3, 0⟩
    (by norm_num) (by norm_num) (by norm_num) (by norm_num) (by norm_num) (by norm_num)

end DoublePendulum
